import Mathlib

/-!
Verification of the dictionary / response-generation core of the `borg`
repository (`src/dictionary.rs`).

Rust strings are embedded as `List Char`; `str::to_lowercase` as a
character-wise basic-latin lowercasing (`Char.toLower`), which agrees with
Rust on all inputs the dictionary manipulates; `HashMap<String, Vec<usize>>`
as an association list whose key order is unobservable (the code never
iterates the map); panics as the `.error` branch of `Except`.
-/

abbrev Str := List Char

/-- Rust `str::to_lowercase`, character-wise. -/
def strToLower (s : Str) : Str := s.map Char.toLower

/-- The character class of the word-splitting regex `[,.!?:\s]+`
(`split_words` in `dictionary.rs`). -/
def is_word_sep (c : Char) : Bool :=
  c = ',' || c = '.' || c = '!' || c = '?' || c = ':' || c.isWhitespace

/-- The sentence-terminating punctuation class `[.!?]` of the
sentence-splitting regex in `dictionary.rs`. -/
def is_sentence_punct (c : Char) : Bool :=
  c = '.' || c = '!' || c = '?'

/-- Split a string at every character satisfying `p`, keeping the (possibly
empty) pieces between delimiter characters.  Splitting at every delimiter
character and later discarding empty pieces is equivalent to splitting at
maximal runs `[...]+` of delimiter characters, which is what the regex
`Regex::split` in `split_words` does. -/
def splitAtChars (p : Char → Bool) : Str → List Str
  | [] => [[]]
  | c :: rest =>
    if p c then [] :: splitAtChars p rest
    else
      match splitAtChars p rest with
      | [] => [[c]]
      | t :: ts => (c :: t) :: ts

/-- Rust `split_words` in `dictionary.rs`: split on the regex `[,.!?:\s]+` and
drop empty fragments. -/
def split_words (s : Str) : List Str :=
  (splitAtChars is_word_sep s).filter (fun t => !t.isEmpty)

theorem length_dropWhile_le (p : Char → Bool) :
    ∀ l : Str, (l.dropWhile p).length ≤ l.length := by
  intro l
  induction l with
  | nil => simp
  | cons c rest ih =>
    rw [List.dropWhile_cons]
    split
    · exact Nat.le_succ_of_le ih
    · exact Nat.le_refl _

/-- The split performed by the sentence regex `(?<=[.!?]+)\s+` of
`split_sentences` in `dictionary.rs`, recorded as a list of
(segment, delimiter) chunks whose concatenation is the input.  A delimiter
is a maximal whitespace run whose first character is immediately preceded
by one of `.!?`; the boolean state records whether the previous character
was such punctuation.  The final chunk's delimiter is empty. -/
def sentence_chunks : Bool → Str → List (Str × Str)
  | _, [] => [([], [])]
  | b, c :: rest =>
    if b && c.isWhitespace then
      ([], c :: rest.takeWhile Char.isWhitespace) ::
        sentence_chunks false (rest.dropWhile Char.isWhitespace)
    else
      match sentence_chunks (is_sentence_punct c) rest with
      | [] => [([c], [])]
      | t :: ts => (c :: t.1, t.2) :: ts
termination_by _ s => s.length
decreasing_by
  · exact Nat.lt_succ_of_le (length_dropWhile_le _ _)
  · exact Nat.lt_succ_self _

/-- Structural form of the same split: cut at every single whitespace
character that belongs to a delimiter run of the regex (the boolean state
is true when the previous character was one of `.!?` or an already-consumed
delimiter whitespace character), keeping the (possibly empty) pieces.
Cutting at every delimiter character instead of at whole runs only inserts
extra empty pieces, which `split_sentences` discards; the equivalence with
the run-based scanner `sentence_chunks` is proved in
`split_sentences_eq_chunks` below. -/
def sentSplitAux : Bool → Str → List Str
  | _, [] => [[]]
  | b, c :: rest =>
    if b && c.isWhitespace then
      [] :: sentSplitAux true rest
    else
      match sentSplitAux (is_sentence_punct c) rest with
      | [] => [[c]]
      | t :: ts => (c :: t) :: ts

/-- Rust `split_sentences` in `dictionary.rs`: split on the regex
`(?<=[.!?]+)\s+` and drop empty fragments. -/
def split_sentences (s : Str) : List Str :=
  (sentSplitAux false s).filter (fun t => !t.isEmpty)

/-- Rust `type Indices = HashMap<String, Vec<usize>>`, as an association list. -/
abbrev Indices := List (Str × List Nat)

/-- Rust `HashMap::get` on the association-list model. -/
def findIndices (w : Str) : Indices → Option (List Nat)
  | [] => none
  | kv :: rest => if kv.1 = w then some kv.2 else findIndices w rest

/-- Rust `insert_word_into_indices` in `dictionary.rs`: fetch-or-create the entry
of `w` and push `i` unless already present. -/
def insert_word_into_indices (indices : Indices) (w : Str) (i : Nat) : Indices :=
  match indices with
  | [] => [(w, [i])]
  | kv :: rest =>
    if kv.1 = w then (kv.1, if i ∈ kv.2 then kv.2 else kv.2 ++ [i]) :: rest
    else kv :: insert_word_into_indices rest w i

/-- Rust `struct Dictionary` in `dictionary.rs`. -/
structure Dictionary where
  sentences : List Str
  indices : Indices
deriving DecidableEq, Repr

/-- Rust `Dictionary::new_empty`. -/
def Dictionary.new_empty : Dictionary := ⟨[], []⟩

/-- Rust `Dictionary::knows_sentence`. -/
def Dictionary.knows_sentence (d : Dictionary) (sentence : Str) : Bool :=
  d.sentences.any (fun x => x = sentence)

/-- Rust `Dictionary::knows_word`. -/
def Dictionary.knows_word (d : Dictionary) (word : Str) : Bool :=
  (findIndices word d.indices).isSome

/-- The body of the `for` loop of `Dictionary::learn` for one candidate
sentence: skip it when known, otherwise append it and index its words at
the new position. -/
def Dictionary.learn_sentence (d : Dictionary) (sentence : Str) : Dictionary × Bool :=
  if d.knows_sentence sentence then (d, false)
  else
    let sentence_index := d.sentences.length
    let indices := (split_words sentence).foldl
      (fun idx w => insert_word_into_indices idx w sentence_index) d.indices
    (⟨d.sentences ++ [sentence], indices⟩, true)

/-- One iteration of the `for` loop of `Dictionary::learn`, threading the
store and the `learned_something` flag. -/
def Dictionary.learn_step (acc : Dictionary × Bool) (sentence : Str) : Dictionary × Bool :=
  let r := acc.1.learn_sentence sentence
  (r.1, acc.2 || r.2)

/-- Rust `Dictionary::learn`: lowercase the line, split into sentences, learn
each in turn; report whether anything was learned. -/
def Dictionary.learn (d : Dictionary) (line : Str) : Dictionary × Bool :=
  (split_sentences (strToLower line)).foldl Dictionary.learn_step (d, false)

/-- Byte-order comparison `a.to_lowercase().cmp(&b.to_lowercase())` is
`Ordering::Less` or `Ordering::Equal` (UTF-8 byte order coincides with
code-point order). -/
def lexLe : Str → Str → Bool
  | [], _ => true
  | _ :: _, [] => false
  | a :: as, b :: bs => if a < b then true else if b < a then false else lexLe as bs

/-- The comparator relation of `sort_sentences`. -/
def lowerLe (a b : Str) : Prop := lexLe (strToLower a) (strToLower b) = true

instance : DecidableRel lowerLe := fun a b => by unfold lowerLe; infer_instance

/-- Rust `sort_sentences` in `dictionary.rs`: Rust's `sort_by` is a stable sort
under the lowercase comparator, so it computes the same list as any stable
sort, in particular insertion sort. -/
def sort_sentences (sentences : List Str) : List Str :=
  List.insertionSort lowerLe sentences

/-- Rust `Dictionary::rebuild_indices`: reset, sort the sentences by lowercase
form, then index every word of every (lowercased) sentence at its new
position. -/
def Dictionary.rebuild_indices (d : Dictionary) : Dictionary :=
  let sentences := sort_sentences d.sentences
  let indices := sentences.enum.foldl
    (fun idx is =>
      (split_words (strToLower is.2)).foldl
        (fun idx w => insert_word_into_indices idx w is.1) idx)
    []
  ⟨sentences, indices⟩

/-- Rust `Dictionary::known_words`: the tokens of the lowercased line that are
keys of the index, in token order, duplicates preserved. -/
def Dictionary.known_words (d : Dictionary) (line : Str) : List Str :=
  (split_words (strToLower line)).filter (fun w => d.knows_word w)

/-- The `self.sentences[*y]` lookups inside `Dictionary::sentences_with_word`;
`.error` models the index-out-of-bounds panic. -/
def getSentencesAt (ss : List Str) : List Nat → Except String (List Str)
  | [] => .ok []
  | p :: ps =>
    match ss[p]? with
    | none => .error "index out of bounds"
    | some s =>
      match getSentencesAt ss ps with
      | .error e => .error e
      | .ok tl => .ok (s :: tl)

/-- Rust `Dictionary::sentences_with_word`. -/
def Dictionary.sentences_with_word (d : Dictionary) (word : Str) : Except String (List Str) :=
  match findIndices word d.indices with
  | some ys => getSentencesAt d.sentences ys
  | none => .ok []

/-- Rust `get_words_left_of_pivot` in `dictionary.rs`. -/
def get_words_left_of_pivot (line pivot : Str) : Option (List Str) :=
  let words := split_words line
  (words.findIdx? (fun word => word = pivot)).map (fun pos => words.take pos)

/-- Rust `get_words_right_of_pivot_inclusive` in `dictionary.rs`. -/
def get_words_right_of_pivot_inclusive (line pivot : Str) : Option (List Str) :=
  let words := split_words line
  (words.findIdx? (fun word => word = pivot)).map (fun pos => words.drop pos)

/-- Rust `Vec::join(" ")`. -/
def joinSpace (l : List Str) : Str := List.intercalate [' '] l

/-- Rust `Dictionary::respond_to`.  The random source is the injected `RngCore`:
`rng k` is the value of the `(k+1)`-th `next_u64` call (the `u64 → usize`
cast is lossless on 64-bit, and the code immediately reduces each draw
modulo a list length).  Draw 0 picks the pivot, draw 1 picks `s1`, draw 2
picks `s2`.  `.error` models the two panic sites: the sentence-vector
indexing inside `sentences_with_word` and the `unwrap` on the right-hand
lookup. -/
def Dictionary.respond_to (d : Dictionary) (line : Str) (rng : Nat → Nat) :
    Except String (Option Str) :=
  let known_words := d.known_words line
  if known_words.isEmpty then .ok none
  else
    let pivot := known_words.getD (rng 0 % known_words.length) []
    match d.sentences_with_word pivot with
    | .error e => .error e
    | .ok sentences_with_word =>
      if sentences_with_word.length < 2 then .ok none
      else
        let s1 := sentences_with_word.getD (rng 1 % sentences_with_word.length) []
        let s2 := sentences_with_word.getD (rng 2 % sentences_with_word.length) []
        let left := joinSpace ((get_words_left_of_pivot s1 pivot).getD [[]])
        match get_words_right_of_pivot_inclusive s2 pivot with
        | none => .error "called unwrap on a none value"
        | some rws =>
          let right := joinSpace rws
          .ok (some (if left.isEmpty then right else left ++ ' ' :: right))

/-! ### Basic facts about the lowercase comparator and `sort_sentences` -/

theorem lexLe_total : ∀ a b : Str, lexLe a b = true ∨ lexLe b a = true := by
  intro a
  induction a with
  | nil => intro b; left; rfl
  | cons x xs ih =>
    intro b
    cases b with
    | nil => right; rfl
    | cons y ys =>
      rcases lt_trichotomy x y with h | h | h
      · left; simp [lexLe, h]
      · subst h
        rcases ih ys with h' | h'
        · left; simp [lexLe, h', lt_irrefl]
        · right; simp [lexLe, h', lt_irrefl]
      · right; simp [lexLe, h]

theorem lexLe_trans :
    ∀ a b c : Str, lexLe a b = true → lexLe b c = true → lexLe a c = true := by
  intro a
  induction a with
  | nil => intro b c _ _; rfl
  | cons x xs ih =>
    intro b c h1 h2
    cases b with
    | nil => simp [lexLe] at h1
    | cons y ys =>
      cases c with
      | nil => simp [lexLe] at h2
      | cons z zs =>
        rcases lt_trichotomy x y with hxy | hxy | hxy
        · rcases lt_trichotomy y z with hyz | hyz | hyz
          · simp [lexLe, lt_trans hxy hyz]
          · subst hyz; simp [lexLe, hxy]
          · simp [lexLe, hyz, lt_asymm hyz] at h2
        · subst hxy
          rcases lt_trichotomy x z with hxz | hxz | hxz
          · simp [lexLe, hxz]
          · subst hxz
            simp only [lexLe, lt_irrefl, if_false] at h1 h2 ⊢
            exact ih ys zs h1 h2
          · simp [lexLe, hxz, lt_asymm hxz] at h2
        · simp [lexLe, hxy, lt_asymm hxy] at h1

instance : IsTotal Str lowerLe :=
  ⟨fun a b => lexLe_total (strToLower a) (strToLower b)⟩

instance : IsTrans Str lowerLe :=
  ⟨fun a b c h1 h2 => lexLe_trans (strToLower a) (strToLower b) (strToLower c) h1 h2⟩

theorem sort_sentences_sorted (l : List Str) :
    List.Sorted lowerLe (sort_sentences l) :=
  List.sorted_insertionSort lowerLe l

theorem sort_sentences_idem (l : List Str) :
    sort_sentences (sort_sentences l) = sort_sentences l :=
  List.Sorted.insertionSort_eq (sort_sentences_sorted l)

theorem sort_sentences_perm (l : List Str) :
    (sort_sentences l).Perm l :=
  List.perm_insertionSort lowerLe l

/-- C4: `rebuildIndices` is idempotent: applying it twice yields exactly the
same sentence ordering and the same index contents as applying it once. -/
theorem rebuild_indices_idempotent (d : Dictionary) :
    d.rebuild_indices.rebuild_indices = d.rebuild_indices := by
  unfold Dictionary.rebuild_indices
  simp only [sort_sentences_idem]

/-! ### `learn`: frame conditions and the returned flag -/

theorem learn_sentence_false (d : Dictionary) (s : Str) :
    (d.learn_sentence s).2 = false → (d.learn_sentence s).1 = d := by
  unfold Dictionary.learn_sentence
  by_cases h : d.knows_sentence s <;> simp [h]

theorem learn_sentence_length_le (d : Dictionary) (s : Str) :
    d.sentences.length ≤ (d.learn_sentence s).1.sentences.length := by
  unfold Dictionary.learn_sentence
  by_cases h : d.knows_sentence s <;> simp [h]

theorem learn_sentence_true_length (d : Dictionary) (s : Str) :
    (d.learn_sentence s).2 = true →
    (d.learn_sentence s).1.sentences.length = d.sentences.length + 1 := by
  unfold Dictionary.learn_sentence
  by_cases h : d.knows_sentence s <;> simp [h]

theorem learn_fold_length_le (l : List Str) :
    ∀ (d : Dictionary) (b : Bool),
      d.sentences.length ≤ (l.foldl Dictionary.learn_step (d, b)).1.sentences.length := by
  induction l with
  | nil => intro d b; exact Nat.le_refl _
  | cons s l ih =>
    intro d b
    calc d.sentences.length ≤ (d.learn_sentence s).1.sentences.length :=
          learn_sentence_length_le d s
      _ ≤ _ := ih (d.learn_sentence s).1 (b || (d.learn_sentence s).2)

theorem learn_step_eq (d : Dictionary) (b : Bool) (s : Str) :
    Dictionary.learn_step (d, b) s = ((d.learn_sentence s).1, b || (d.learn_sentence s).2) :=
  rfl

theorem learn_fold_false (l : List Str) :
    ∀ (d : Dictionary) (b : Bool),
      (l.foldl Dictionary.learn_step (d, b)).2 = false →
      b = false ∧ (l.foldl Dictionary.learn_step (d, b)).1 = d := by
  induction l with
  | nil => intro d b h; exact ⟨h, rfl⟩
  | cons s l ih =>
    intro d b h
    rw [List.foldl_cons, learn_step_eq] at h ⊢
    have h' := ih (d.learn_sentence s).1 (b || (d.learn_sentence s).2) h
    rcases h' with ⟨hb, hd⟩
    rcases Bool.or_eq_false_iff.mp hb with ⟨hb1, hb2⟩
    refine ⟨hb1, ?_⟩
    rw [hd, learn_sentence_false d s hb2]

theorem learn_fold_true (l : List Str) :
    ∀ (d : Dictionary) (b : Bool),
      (l.foldl Dictionary.learn_step (d, b)).2 = true →
      b = true ∨ d.sentences.length < (l.foldl Dictionary.learn_step (d, b)).1.sentences.length := by
  induction l with
  | nil => intro d b h; exact Or.inl h
  | cons s l ih =>
    intro d b h
    rw [List.foldl_cons, learn_step_eq] at h ⊢
    rcases ih (d.learn_sentence s).1 (b || (d.learn_sentence s).2) h with h' | h'
    · rcases Bool.or_eq_true_iff.mp h' with hb | hb
      · exact Or.inl hb
      · right
        have hlen := learn_sentence_true_length d s hb
        have := learn_fold_length_le l (d.learn_sentence s).1 (b || (d.learn_sentence s).2)
        omega
    · right
      have := learn_sentence_length_le d s
      omega

/-- C9 (amended): `learn` returns `false` iff it leaves the store completely
unchanged; in particular, whenever the lowercased line splits into no
candidate sentences at all (for instance the empty line), `learn` returns
`false` and changes nothing. -/
theorem learn_false_iff_unchanged (d : Dictionary) (line : Str) :
    ((d.learn line).2 = false ↔ (d.learn line).1 = d) ∧
    (split_sentences (strToLower line) = [] →
      (d.learn line).2 = false ∧ (d.learn line).1 = d) := by
  constructor
  · constructor
    · intro h
      exact (learn_fold_false _ d false h).2
    · intro h
      cases hb : (d.learn line).2 with
      | false => rfl
      | true =>
        exfalso
        have h' : d.sentences.length < (d.learn line).1.sentences.length := by
          rcases learn_fold_true (split_sentences (strToLower line)) d false hb with h' | h'
          · exact (Bool.false_ne_true h').elim
          · exact h'
        rw [h] at h'
        exact lt_irrefl _ h'
  · intro h
    unfold Dictionary.learn
    rw [h]
    exact ⟨rfl, rfl⟩

/-- C9 counterexample: a whitespace-only line is NOT tokenized to nothing:
it is learned as a new sentence, `learn` returns `true` and the store
changes. -/
theorem learn_whitespace_counterexample :
    (Dictionary.new_empty.learn [' ']).2 = true ∧
    (Dictionary.new_empty.learn [' ']).1 ≠ Dictionary.new_empty ∧
    split_sentences (strToLower [' ']) ≠ [] := by
  refine ⟨rfl, ?_, ?_⟩ <;> decide

/-- C9 witness: instantiating the amended claim at the empty line on the
empty store. -/
theorem learn_false_iff_unchanged_witness :
    (Dictionary.new_empty.learn []).2 = false ∧
    (Dictionary.new_empty.learn []).1 = Dictionary.new_empty :=
  (learn_false_iff_unchanged Dictionary.new_empty []).2 (by decide)

deriving instance DecidableEq for Except

/-! ### C2: the rebuilt example store and the spec's response example -/

/-- The example store of spec §8 Example 3: the five sentences, after
`rebuildIndices()`. -/
def example_store : Dictionary :=
  (Dictionary.mk
    ["hey there everyone".toList, "everyone is a crab".toList,
     "crabs are great".toList, "there are many crabs".toList,
     "crabs".toList] []).rebuild_indices

/-- The input line of spec §8 Example 3. -/
def example_line : Str := "Hey there everyone!".toList

/-- A random source whose first draw selects known-word index 2 and whose
two sentence draws both land on position 0 of the qualifying set. -/
def example_rng : Nat → Nat := fun n => if n = 0 then 2 else 0

/-- C2 counterexample: on the rebuilt store, with draws exactly as the
claim demands (known-word index 2, i.e. the pivot "everyone", then both
sentence draws on position 0 of the qualifying set), `respond_to` returns
"everyone is a crab", not "everyone": after the rebuild the sentences are
sorted, so position 0 of the qualifying set is "everyone is a crab". -/
theorem respond_example_counterexample :
    example_rng 0 % (example_store.known_words example_line).length = 2 ∧
    example_rng 1 % 2 = 0 ∧
    example_rng 2 % 2 = 0 ∧
    example_store.respond_to example_line example_rng =
      .ok (some "everyone is a crab".toList) ∧
    "everyone is a crab".toList ≠ "everyone".toList := by
  refine ⟨by decide, by decide, by decide, by decide, by decide⟩

/-- C2 (amended): on the rebuilt example store, with the draws of Example 3
(known-word index 2 — the pivot "everyone" — then both sentence draws on
position 0 of the qualifying set), `respondTo("Hey there everyone!")`
returns "everyone is a crab". -/
theorem respond_example_rebuilt (rng : Nat → Nat)
    (h0 : rng 0 % (example_store.known_words example_line).length = 2)
    (h1 : rng 1 % 2 = 0) (h2 : rng 2 % 2 = 0) :
    example_store.respond_to example_line rng = .ok (some "everyone is a crab".toList) := by
  have hkw : example_store.known_words example_line =
      ["hey".toList, "there".toList, "everyone".toList] := by decide
  rw [hkw] at h0
  have hsw : example_store.sentences_with_word ['e', 'v', 'e', 'r', 'y', 'o', 'n', 'e'] =
      .ok ["everyone is a crab".toList, "hey there everyone".toList] := by decide
  simp only [Dictionary.respond_to, hkw]
  rw [h0]
  norm_num
  rw [hsw]
  norm_num [h1, h2]
  decide

/-- C2 witness: a concrete random source realizing the draws. -/
theorem respond_example_rebuilt_witness :
    example_rng 0 % (example_store.known_words example_line).length = 2 ∧
    example_rng 1 % 2 = 0 ∧ example_rng 2 % 2 = 0 ∧
    example_store.respond_to example_line example_rng =
      .ok (some "everyone is a crab".toList) :=
  ⟨by decide, by decide, by decide,
    respond_example_rebuilt example_rng (by decide) (by decide) (by decide)⟩

/-! ### C6: `known_words` is the order- and multiplicity-preserving
restriction of the tokens to the known ones -/

/-- C6: `knownWords(line)` is a sublist (hence preserves original token
order) of the tokens of the lowercased line; it contains exactly the tokens
that are keys of the index; and each known token occurs in it exactly as
often as in the token list (no deduplication), while unknown tokens do not
occur. -/
theorem known_words_spec (d : Dictionary) (line : Str) :
    (d.known_words line).Sublist (split_words (strToLower line)) ∧
    (∀ w, w ∈ d.known_words line ↔
      w ∈ split_words (strToLower line) ∧ d.knows_word w = true) ∧
    (∀ w, (d.known_words line).count w =
      if d.knows_word w then (split_words (strToLower line)).count w else 0) := by
  refine ⟨List.filter_sublist _, ?_, ?_⟩
  · intro w
    simp [Dictionary.known_words, List.mem_filter]
  · intro w
    by_cases h : d.knows_word w = true
    · rw [if_pos h]
      exact List.count_filter h
    · rw [if_neg h, List.count_eq_zero]
      intro hmem
      exact h (List.mem_filter.mp hmem).2

/-- A fixed concrete store used to instantiate `known_words_spec`. -/
def kw_store : Dictionary :=
  ⟨["hello world!".toList, "i love pizza.".toList],
    [("hello".toList, [0]), ("world".toList, [0]), ("i".toList, [1]),
     ("love".toList, [1]), ("pizza".toList, [1])]⟩

/-- C6 witness: instantiating the characterization at a concrete store and
line. -/
theorem known_words_spec_witness : kw_store.knows_word "pizza".toList = true :=
  (((known_words_spec kw_store "I Hate Pizza!".toList).2.1 "pizza".toList).mp
    (by decide)).2

/-! ### C3: the no-response paths of `respond_to` -/

theorem getSentencesAt_ok (ss : List Str) (ps : List Nat)
    (h : ∀ p ∈ ps, p < ss.length) :
    ∃ l, getSentencesAt ss ps = .ok l ∧ l.length = ps.length ∧
      ∀ x ∈ l, ∃ p ∈ ps, ss[p]? = some x := by
  induction ps with
  | nil => exact ⟨[], rfl, rfl, by simp⟩
  | cons p ps ih =>
    have hp : p < ss.length := h p (List.mem_cons_self p ps)
    have hs : ss[p]? = some ss[p] := List.getElem?_eq_getElem hp
    obtain ⟨l, hl, hlen, hmem⟩ := ih (fun q hq => h q (List.mem_cons_of_mem p hq))
    refine ⟨ss[p] :: l, ?_, by simp [hlen], ?_⟩
    · unfold getSentencesAt
      rw [hs, hl]
    · intro x hx
      rcases List.mem_cons.mp hx with hx | hx
      · exact ⟨p, List.mem_cons_self p ps, hx ▸ hs⟩
      · obtain ⟨q, hq, hq'⟩ := hmem x hx
        exact ⟨q, List.mem_cons_of_mem p hq, hq'⟩

theorem respond_to_no_known_word (d : Dictionary) (line : Str) (rng : Nat → Nat)
    (h : d.known_words line = []) : d.respond_to line rng = .ok none := by
  unfold Dictionary.respond_to
  simp [h]

/-- C3 (amended): `respondTo` returns no-response whenever the input line
contains no word present in the index; and whenever the known words of the
line are all occurrences of one single word `w` whose index list has fewer
than two entries, provided every entry of that list is a valid position
into the sentence sequence (without that proviso the code panics on the
out-of-range sentence lookup instead of returning no-response). -/
theorem respond_to_none_cases (d : Dictionary) (line : Str) (rng : Nat → Nat) :
    (d.known_words line = [] → d.respond_to line rng = .ok none) ∧
    (∀ w ps,
      (∀ u ∈ d.known_words line, u = w) →
      findIndices w d.indices = some ps →
      (∀ p ∈ ps, p < d.sentences.length) →
      ps.length < 2 →
      d.respond_to line rng = .ok none) := by
  refine ⟨respond_to_no_known_word d line rng, ?_⟩
  intro w ps hall hfind hvalid hlen
  by_cases hkw : d.known_words line = []
  · exact respond_to_no_known_word d line rng hkw
  · have hpos : 0 < (d.known_words line).length := List.length_pos.mpr hkw
    have hidx : rng 0 % (d.known_words line).length < (d.known_words line).length :=
      Nat.mod_lt _ hpos
    have hpivot : (d.known_words line).getD (rng 0 % (d.known_words line).length) [] = w := by
      rw [List.getD_eq_getElem?_getD, List.getElem?_eq_getElem hidx]
      exact hall _ (List.getElem_mem hidx)
    obtain ⟨l, hok, hlen', _⟩ := getSentencesAt_ok d.sentences ps hvalid
    have hsw : d.sentences_with_word w = .ok l := by
      unfold Dictionary.sentences_with_word
      rw [hfind]
      exact hok
    unfold Dictionary.respond_to
    rw [if_neg (by simp [hkw]), hpivot]
    simp only [hsw]
    rw [if_pos (by omega)]

/-- A store whose index mentions position 0 while the sentence sequence is
empty: the inconsistency that makes the unamended C3 fail. -/
def oob_store : Dictionary := ⟨[], [(['w'], [0])]⟩

/-- C3 counterexample: on `oob_store` the input "w" has exactly one
qualifying word, which indexes fewer than two sentences, yet `respond_to`
does not return no-response: it panics (models the Rust
`self.sentences[0]` index-out-of-bounds panic). -/
theorem respond_to_none_counterexample :
    oob_store.known_words ['w'] = [['w']] ∧
    findIndices ['w'] oob_store.indices = some [0] ∧
    ([0] : List Nat).length < 2 ∧
    oob_store.respond_to ['w'] (fun _ => 0) ≠ .ok none ∧
    oob_store.respond_to ['w'] (fun _ => 0) = .error "index out of bounds" := by
  refine ⟨by decide, by decide, by decide, by decide, by decide⟩

/-- C3 witness: a store where the single known word of the line indexes one
(valid) sentence, so `respond_to` returns no-response. -/
theorem respond_to_none_cases_witness :
    kw_store.respond_to "hello".toList (fun _ => 0) = .ok none :=
  (respond_to_none_cases kw_store "hello".toList (fun _ => 0)).2
    "hello".toList [0] (by decide) (by decide) (by decide) (by decide)

/-! ### C5: persistence round trip -/

/-- Modelled from the spec: the "self-describing structured document" of
§4.4/§6 into which `serde_json` (not part of this repository's sources)
serializes a `Dictionary` — a document with two top-level fields, an
ordered list of strings and a mapping from string to an ordered list of
non-negative integers. -/
inductive Json where
  | str : Str → Json
  | num : Nat → Json
  | arr : List Json → Json
  | obj : List (Str × Json) → Json

/-- Modelled from the spec: serialization of a store (`serde_json::to_string`
composed with the derived `Serialize`). -/
def Dictionary.write_json (d : Dictionary) : Json :=
  .obj [("sentences".toList, .arr (d.sentences.map Json.str)),
        ("indices".toList,
          .obj (d.indices.map (fun kv => (kv.1, Json.arr (kv.2.map Json.num)))))]

def decode_str_list : List Json → Option (List Str)
  | [] => some []
  | .str s :: rest =>
    match decode_str_list rest with
    | some tl => some (s :: tl)
    | none => none
  | _ :: _ => none

def decode_nat_list : List Json → Option (List Nat)
  | [] => some []
  | .num n :: rest =>
    match decode_nat_list rest with
    | some tl => some (n :: tl)
    | none => none
  | _ :: _ => none

def decode_entries : List (Str × Json) → Option Indices
  | [] => some []
  | (k, .arr v) :: rest =>
    match decode_nat_list v, decode_entries rest with
    | some ps, some tl => some ((k, ps) :: tl)
    | _, _ => none
  | _ :: _ => none

/-- Modelled from the spec: deserialization of a store
(`serde_json::from_str` with the derived `Deserialize`); `none` is the
parse/deserialization failure of §7. -/
def decode_dictionary : Json → Option Dictionary
  | .obj [(k1, .arr sj), (k2, .obj ej)] =>
    if k1 = "sentences".toList ∧ k2 = "indices".toList then
      match decode_str_list sj, decode_entries ej with
      | some ss, some idx => some ⟨ss, idx⟩
      | _, _ => none
    else none
  | _ => none

/-- Modelled from the spec: the file system seen through `fs::read_to_string`
and `fs::write`, at the granularity of whole documents. -/
abbrev FileSystem := List (Str × Json)

def lookup_file : FileSystem → Str → Option Json
  | [], _ => none
  | kv :: rest, p => if kv.1 = p then some kv.2 else lookup_file rest p

def write_file : FileSystem → Str → Json → FileSystem
  | [], p, j => [(p, j)]
  | kv :: rest, p, j => if kv.1 = p then (p, j) :: rest else kv :: write_file rest p j

/-- Rust `Dictionary::write_to_disk`. -/
def Dictionary.write_to_disk (d : Dictionary) (fs : FileSystem) (path : Str) : FileSystem :=
  write_file fs path d.write_json

/-- Rust `Dictionary::load`: create-persist-return an empty store when no file
exists at the path, otherwise parse the file. -/
def Dictionary.load (fs : FileSystem) (path : Str) : Except String (Dictionary × FileSystem) :=
  match lookup_file fs path with
  | none =>
    .ok (Dictionary.new_empty, Dictionary.new_empty.write_to_disk fs path)
  | some j =>
    match decode_dictionary j with
    | some d => .ok (d, fs)
    | none => .error "parse error"

theorem lookup_write_file (fs : FileSystem) (p : Str) (j : Json) :
    lookup_file (write_file fs p j) p = some j := by
  induction fs with
  | nil => simp [write_file, lookup_file]
  | cons kv rest ih =>
    by_cases h : kv.1 = p
    · simp [write_file, lookup_file, h]
    · simp [write_file, lookup_file, h, ih]

theorem decode_str_list_round (ss : List Str) :
    decode_str_list (ss.map Json.str) = some ss := by
  induction ss with
  | nil => rfl
  | cons s rest ih => simp [decode_str_list, ih]

theorem decode_nat_list_round (ps : List Nat) :
    decode_nat_list (ps.map Json.num) = some ps := by
  induction ps with
  | nil => rfl
  | cons p rest ih => simp [decode_nat_list, ih]

theorem decode_entries_round (idx : Indices) :
    decode_entries (idx.map (fun kv => (kv.1, Json.arr (kv.2.map Json.num)))) = some idx := by
  induction idx with
  | nil => rfl
  | cons kv rest ih => simp [decode_entries, decode_nat_list_round, ih]

theorem decode_write_json (d : Dictionary) :
    decode_dictionary d.write_json = some d := by
  simp [Dictionary.write_json, decode_dictionary, decode_str_list_round,
    decode_entries_round]

/-- C5: serializing a store with `writeToDisk(p)` and then deserializing
with `load(p)` yields exactly the store that was written — same sentence
sequence in the same order, same per-word position lists (and the file
system is left as written). -/
theorem write_to_disk_load_round_trip (d : Dictionary) (fs : FileSystem) (path : Str) :
    Dictionary.load (d.write_to_disk fs path) path = .ok (d, d.write_to_disk fs path) := by
  unfold Dictionary.load
  rw [show lookup_file (d.write_to_disk fs path) path = some d.write_json from
        lookup_write_file fs path d.write_json]
  simp only [decode_write_json]

/-! ### Lowercasing: basic-latin lowercasing is idempotent, and the
sentences produced by `learn` are already lowercase -/

theorem char_toLower_idem (c : Char) : c.toLower.toLower = c.toLower := by
  by_cases h : c.toNat ≥ 65 ∧ c.toNat ≤ 90
  · have h1 : c.toLower = Char.ofNat (c.toNat + 32) := by
      simp only [Char.toLower]
      rw [if_pos h]
    rw [h1]
    obtain ⟨ha, hb⟩ := h
    generalize c.toNat = n at ha hb
    interval_cases n <;> decide
  · have h1 : c.toLower = c := by
      simp only [Char.toLower]
      rw [if_neg h]
    rw [h1]
    exact h1

theorem strToLower_eq_self_of_mem {s : Str} (h : ∀ c ∈ s, c.toLower = c) :
    strToLower s = s := by
  induction s with
  | nil => rfl
  | cons c rest ih =>
    unfold strToLower at *
    rw [List.map_cons, h c (List.mem_cons_self c rest),
      ih (fun c' hc' => h c' (List.mem_cons_of_mem c hc'))]

theorem mem_strToLower_stable {c : Char} {s : Str} (h : c ∈ strToLower s) :
    c.toLower = c := by
  obtain ⟨c0, _, rfl⟩ := List.mem_map.mp h
  exact char_toLower_idem c0

theorem sentSplitAux_chars :
    ∀ (s : Str) (b : Bool) (t : Str), t ∈ sentSplitAux b s → ∀ c ∈ t, c ∈ s := by
  intro s
  induction s with
  | nil =>
    intro b t ht c hc
    unfold sentSplitAux at ht
    simp at ht
    subst ht
    cases hc
  | cons x rest ih =>
    intro b t ht c hc
    unfold sentSplitAux at ht
    by_cases hx : b && x.isWhitespace
    · rw [if_pos hx] at ht
      rcases List.mem_cons.mp ht with ht | ht
      · subst ht; cases hc
      · exact List.mem_cons_of_mem x (ih true t ht c hc)
    · rw [if_neg hx] at ht
      cases hrec : sentSplitAux (is_sentence_punct x) rest with
      | nil =>
        rw [hrec] at ht
        simp at ht
        subst ht
        rcases List.mem_cons.mp hc with hc | hc
        · subst hc; exact List.mem_cons_self c rest
        · cases hc
      | cons t' ts =>
        rw [hrec] at ht
        rcases List.mem_cons.mp ht with ht | ht
        · subst ht
          rcases List.mem_cons.mp hc with hc | hc
          · subst hc; exact List.mem_cons_self c rest
          · refine List.mem_cons_of_mem x (ih (is_sentence_punct x) t' ?_ c hc)
            rw [hrec]; exact List.mem_cons_self t' ts
        · refine List.mem_cons_of_mem x (ih (is_sentence_punct x) t ?_ c hc)
          rw [hrec]; exact List.mem_cons_of_mem t' ht

/-- Every sentence learned from a lowercased line is itself fixed by
lowercasing. -/
theorem split_sentences_lower_stable {line t : Str}
    (h : t ∈ split_sentences (strToLower line)) : strToLower t = t := by
  have ht : t ∈ sentSplitAux false (strToLower line) :=
    (List.mem_filter.mp h).1
  exact strToLower_eq_self_of_mem
    (fun c hc => mem_strToLower_stable (sentSplitAux_chars _ false t ht c hc))

/-! ### The index-consistency invariant (C1) -/

/-- The index is consistent with a sentence sequence: every position list
is duplicate-free, and every listed position points at a sentence whose
lowercased tokenization contains the word. -/
def IndexOk (ss : List Str) (idx : Indices) : Prop :=
  ∀ w ps, findIndices w idx = some ps →
    ps.Nodup ∧ ∀ p ∈ ps, ∃ s, ss[p]? = some s ∧ w ∈ split_words (strToLower s)

/-- The spec's index-consistency invariant for a store. -/
def IndexConsistent (d : Dictionary) : Prop := IndexOk d.sentences d.indices

theorem indexOk_nil (ss : List Str) : IndexOk ss [] := by
  intro w ps h
  simp [findIndices] at h

theorem findIndices_insert_self (idx : Indices) (w : Str) (i : Nat) :
    findIndices w (insert_word_into_indices idx w i) =
      some (if i ∈ (findIndices w idx).getD [] then (findIndices w idx).getD []
            else (findIndices w idx).getD [] ++ [i]) := by
  induction idx with
  | nil => simp [insert_word_into_indices, findIndices]
  | cons kv rest ih =>
    by_cases h : kv.1 = w
    · simp [insert_word_into_indices, findIndices, h]
    · simp [insert_word_into_indices, findIndices, h, ih]

theorem findIndices_insert_other (idx : Indices) (w w' : Str) (i : Nat) (hw : w' ≠ w) :
    findIndices w' (insert_word_into_indices idx w i) = findIndices w' idx := by
  induction idx with
  | nil =>
    simp only [insert_word_into_indices, findIndices]
    rw [if_neg (fun h => hw h.symm)]
  | cons kv rest ih =>
    by_cases h : kv.1 = w
    · have hne : ¬(w = w') := fun hh => hw hh.symm
      simp [insert_word_into_indices, findIndices, h, hne]
    · simp [insert_word_into_indices, findIndices, h, ih]

theorem indexOk_insert {ss : List Str} {idx : Indices} (h : IndexOk ss idx)
    {w : Str} {i : Nat}
    (hw : ∃ s, ss[i]? = some s ∧ w ∈ split_words (strToLower s)) :
    IndexOk ss (insert_word_into_indices idx w i) := by
  intro w' ps hfind
  by_cases hww : w' = w
  · subst hww
    rw [findIndices_insert_self] at hfind
    injection hfind with hps
    have hbase : ((findIndices w' idx).getD []).Nodup ∧
        ∀ p ∈ (findIndices w' idx).getD [],
          ∃ s, ss[p]? = some s ∧ w' ∈ split_words (strToLower s) := by
      cases hv : findIndices w' idx with
      | none => simp
      | some v => simpa using h w' v hv
    by_cases hi : i ∈ (findIndices w' idx).getD []
    · rw [if_pos hi] at hps
      subst hps
      exact hbase
    · rw [if_neg hi] at hps
      subst hps
      constructor
      · simp [List.nodup_append, hbase.1]
        intro hcontra
        exact hi hcontra
      · intro p hp
        rcases List.mem_append.mp hp with hp | hp
        · exact hbase.2 p hp
        · rw [List.mem_singleton.mp hp]
          exact hw
  · rw [findIndices_insert_other idx w w' i hww] at hfind
    exact h w' ps hfind

theorem indexOk_fold_words {ss : List Str} (ws : List Str) (i : Nat) :
    ∀ idx : Indices, IndexOk ss idx →
      (∀ w ∈ ws, ∃ s, ss[i]? = some s ∧ w ∈ split_words (strToLower s)) →
      IndexOk ss (ws.foldl (fun idx w => insert_word_into_indices idx w i) idx) := by
  induction ws with
  | nil => intro idx h _; exact h
  | cons w ws ih =>
    intro idx h hws
    rw [List.foldl_cons]
    exact ih _ (indexOk_insert h (hws w (List.mem_cons_self w ws)))
      (fun w' hw' => hws w' (List.mem_cons_of_mem w hw'))

theorem indexOk_append {ss : List Str} {idx : Indices} (h : IndexOk ss idx) (s0 : Str) :
    IndexOk (ss ++ [s0]) idx := by
  intro w ps hf
  obtain ⟨hnd, hmem⟩ := h w ps hf
  refine ⟨hnd, fun p hp => ?_⟩
  obtain ⟨s, hs, hw⟩ := hmem p hp
  have hlt : p < ss.length := by
    by_contra hge
    rw [List.getElem?_eq_none (Nat.le_of_not_lt hge)] at hs
    cases hs
  refine ⟨s, ?_, hw⟩
  rw [List.getElem?_append_left hlt]
  exact hs

/-- Stores whose sentences are all fixed by lowercasing (true of every
reachable store, since `learn` lowercases before storing). -/
def LowerStable (d : Dictionary) : Prop := ∀ s ∈ d.sentences, strToLower s = s

theorem learn_sentence_ok {d : Dictionary} (hOk : IndexConsistent d) (hLs : LowerStable d)
    {sent : Str} (hsent : strToLower sent = sent) :
    IndexConsistent (d.learn_sentence sent).1 ∧ LowerStable (d.learn_sentence sent).1 := by
  unfold Dictionary.learn_sentence
  by_cases h : d.knows_sentence sent
  · simp only [if_pos h]
    exact ⟨hOk, hLs⟩
  · simp only [if_neg h]
    constructor
    · refine indexOk_fold_words (split_words sent) d.sentences.length d.indices
        (indexOk_append hOk sent) (fun w hw => ⟨sent, ?_, ?_⟩)
      · exact List.getElem?_concat_length d.sentences sent
      · rw [hsent]; exact hw
    · intro s hs
      rcases List.mem_append.mp hs with hs | hs
      · exact hLs s hs
      · rw [List.mem_singleton.mp hs]
        exact hsent

theorem learn_fold_ok (L : List Str) :
    ∀ (d : Dictionary) (b : Bool), IndexConsistent d → LowerStable d →
      (∀ t ∈ L, strToLower t = t) →
      IndexConsistent (L.foldl Dictionary.learn_step (d, b)).1 ∧
      LowerStable (L.foldl Dictionary.learn_step (d, b)).1 := by
  induction L with
  | nil => intro d b hOk hLs _; exact ⟨hOk, hLs⟩
  | cons t L ih =>
    intro d b hOk hLs hall
    rw [List.foldl_cons, learn_step_eq]
    have hstep := learn_sentence_ok hOk hLs (hall t (List.mem_cons_self t L))
    exact ih _ _ hstep.1 hstep.2 (fun u hu => hall u (List.mem_cons_of_mem t hu))

theorem learn_ok {d : Dictionary} (hOk : IndexConsistent d) (hLs : LowerStable d)
    (line : Str) :
    IndexConsistent (d.learn line).1 ∧ LowerStable (d.learn line).1 :=
  learn_fold_ok _ d false hOk hLs (fun _ ht => split_sentences_lower_stable ht)

theorem indexOk_build (ss : List Str) :
    ∀ (L : List (Nat × Str)) (idx : Indices), IndexOk ss idx →
      (∀ x ∈ L, ss[x.1]? = some x.2) →
      IndexOk ss (L.foldl
        (fun idx is =>
          (split_words (strToLower is.2)).foldl
            (fun idx w => insert_word_into_indices idx w is.1) idx) idx) := by
  intro L
  induction L with
  | nil => intro idx h _; exact h
  | cons x L ih =>
    intro idx h hall
    rw [List.foldl_cons]
    refine ih _
      (indexOk_fold_words (split_words (strToLower x.2)) x.1 idx h
        (fun w hw => ⟨x.2, hall x (List.mem_cons_self x L), hw⟩))
      (fun y hy => hall y (List.mem_cons_of_mem x hy))

theorem mem_enum_getElem? {ss : List Str} {x : Nat × Str} (h : x ∈ ss.enum) :
    ss[x.1]? = some x.2 := by
  exact List.mem_enum_iff_getElem?.mp h

theorem rebuild_ok (d : Dictionary) :
    IndexConsistent d.rebuild_indices ∧
    (LowerStable d → LowerStable d.rebuild_indices) := by
  constructor
  · exact indexOk_build (sort_sentences d.sentences) (sort_sentences d.sentences).enum
      [] (indexOk_nil _) (fun _ hx => mem_enum_getElem? hx)
  · intro hLs s hs
    exact hLs s ((sort_sentences_perm d.sentences).mem_iff.mp hs)

/-- The stores reachable from `new_empty()` by any sequence of `learn` and
`rebuild_indices` calls. -/
inductive Reachable : Dictionary → Prop
  | new_empty : Reachable Dictionary.new_empty
  | learn (d : Dictionary) (line : Str) : Reachable d → Reachable (d.learn line).1
  | rebuild (d : Dictionary) : Reachable d → Reachable d.rebuild_indices

theorem reachable_ok : ∀ d : Dictionary, Reachable d → IndexConsistent d ∧ LowerStable d := by
  intro d h
  induction h with
  | new_empty =>
    refine ⟨indexOk_nil _, fun s hs => ?_⟩
    cases hs
  | learn d line _ ih => exact learn_ok ih.1 ih.2 line
  | rebuild d _ ih => exact ⟨(rebuild_ok d).1, (rebuild_ok d).2 ih.2⟩

/-- C1: for every store reachable from `newEmpty()` by `learn` and
`rebuildIndices` calls, every position listed in the inverted index is a
valid index into the sentence sequence, the sentence there, lowercased and
tokenized by `splitWords`, contains the word, and each position occurs at
most once per word. -/
theorem reachable_index_consistent (d : Dictionary) (h : Reachable d) :
    ∀ w ps, findIndices w d.indices = some ps →
      ps.Nodup ∧ ∀ p ∈ ps, p < d.sentences.length ∧
        ∃ s, d.sentences[p]? = some s ∧ w ∈ split_words (strToLower s) := by
  intro w ps hf
  obtain ⟨hnd, hmem⟩ := (reachable_ok d h).1 w ps hf
  refine ⟨hnd, fun p hp => ?_⟩
  obtain ⟨s, hs, hw⟩ := hmem p hp
  obtain ⟨hlt, _⟩ := List.getElem?_eq_some_iff.mp hs
  exact ⟨hlt, s, hs, hw⟩

/-- A concrete reachable store used to instantiate C1. -/
def learned_store : Dictionary :=
  (Dictionary.new_empty.learn "Hey there, everyone!".toList).1

/-- C1 witness: the invariant instantiated on a store reached by one `learn`
call, at the word "hey". -/
theorem reachable_index_consistent_witness :
    ([0] : List Nat).Nodup ∧ ∀ p ∈ ([0] : List Nat), p < learned_store.sentences.length ∧
      ∃ s, learned_store.sentences[p]? = some s ∧
        "hey".toList ∈ split_words (strToLower s) :=
  reachable_index_consistent learned_store
    (Reachable.learn Dictionary.new_empty "Hey there, everyone!".toList Reachable.new_empty)
    "hey".toList [0] (by decide)

/-! ### C8 and C10: the two pivot lookups inside `respond_to` -/

/-- The pivot chosen by the first random draw inside `respond_to`. -/
def pivot_of (d : Dictionary) (line : Str) (rng : Nat → Nat) : Str :=
  (d.known_words line).getD (rng 0 % (d.known_words line).length) []

theorem pivot_of_mem {d : Dictionary} {line : Str} (rng : Nat → Nat)
    (h : d.known_words line ≠ []) : pivot_of d line rng ∈ d.known_words line := by
  unfold pivot_of
  have hpos : 0 < (d.known_words line).length := List.length_pos.mpr h
  have hidx : rng 0 % (d.known_words line).length < (d.known_words line).length :=
    Nat.mod_lt _ hpos
  rw [List.getD_eq_getElem?_getD, List.getElem?_eq_getElem hidx]
  exact List.getElem_mem hidx

/-- Reduction of `respond_to` in the splicing branch, given the outcome of
the two donor lookups. -/
theorem respond_to_splice (d : Dictionary) (line : Str) (rng : Nat → Nat)
    (l : List Str)
    (hkw : d.known_words line ≠ [])
    (hsw : d.sentences_with_word (pivot_of d line rng) = .ok l)
    (h2 : ¬ l.length < 2) :
    d.respond_to line rng =
      (match get_words_right_of_pivot_inclusive (l.getD (rng 2 % l.length) [])
          (pivot_of d line rng) with
      | none => .error "called unwrap on a none value"
      | some rws =>
        .ok (some
          (if (joinSpace ((get_words_left_of_pivot (l.getD (rng 1 % l.length) [])
              (pivot_of d line rng)).getD [[]])).isEmpty then joinSpace rws
           else joinSpace ((get_words_left_of_pivot (l.getD (rng 1 % l.length) [])
              (pivot_of d line rng)).getD [[]]) ++ ' ' :: joinSpace rws))) := by
  unfold pivot_of at hsw ⊢
  unfold Dictionary.respond_to
  rw [if_neg (by simp [hkw])]
  simp only [hsw]
  rw [if_neg h2]

theorem findIdx?_isSome_of_mem {l : List Str} {a : Str} (h : a ∈ l) :
    (l.findIdx? (fun x => x = a)).isSome = true := by
  rw [List.findIdx?_isSome, List.any_eq_true]
  exact ⟨a, h, by simp⟩

theorem get_words_right_isSome {s a : Str} (h : a ∈ split_words s) :
    ∃ rws, get_words_right_of_pivot_inclusive s a = some rws := by
  obtain ⟨pos, hpos⟩ := Option.isSome_iff_exists.mp (findIdx?_isSome_of_mem h)
  refine ⟨(split_words s).drop pos, ?_⟩
  simp only [get_words_right_of_pivot_inclusive]
  rw [hpos]
  rfl

/-- C8 (amended): if the index is consistent with the sentence sequence and
the sentences are lowercase-normalized (§3), then no panic branch of
`respond_to` is reachable: in particular the `unwrap` on the right-donor
lookup always succeeds.  (Consistency alone is not enough — see the
counterexample — because the invariant speaks about the *lowercased*
tokenization of the sentence while the right-donor lookup tokenizes the
stored sentence as is.) -/
theorem respond_to_consistent_no_panic (d : Dictionary) (line : Str) (rng : Nat → Nat)
    (hOk : IndexConsistent d) (hLs : LowerStable d) :
    ∃ r, d.respond_to line rng = .ok r := by
  by_cases hkw : d.known_words line = []
  · exact ⟨none, respond_to_no_known_word d line rng hkw⟩
  · have hpm := pivot_of_mem rng hkw
    have hknows : d.knows_word (pivot_of d line rng) = true :=
      (List.mem_filter.mp hpm).2
    obtain ⟨ps, hfind⟩ := Option.isSome_iff_exists.mp hknows
    obtain ⟨_, hmem⟩ := hOk (pivot_of d line rng) ps hfind
    have hvalid : ∀ p ∈ ps, p < d.sentences.length := by
      intro p hp
      obtain ⟨s, hs, _⟩ := hmem p hp
      exact (List.getElem?_eq_some_iff.mp hs).1
    obtain ⟨l, hok, hlen, hsrc⟩ := getSentencesAt_ok d.sentences ps hvalid
    have hsw : d.sentences_with_word (pivot_of d line rng) = .ok l := by
      unfold Dictionary.sentences_with_word
      rw [hfind]
      exact hok
    by_cases h2 : l.length < 2
    · refine ⟨none, ?_⟩
      unfold pivot_of at hsw
      unfold Dictionary.respond_to
      rw [if_neg (by simp [hkw])]
      simp only [hsw]
      rw [if_pos h2]
    · -- the right donor contains the pivot, so the unwrap succeeds
      have hl0 : 0 < l.length := by omega
      have hidx2 : rng 2 % l.length < l.length := Nat.mod_lt _ hl0
      have hs2mem : l.getD (rng 2 % l.length) [] ∈ l := by
        rw [List.getD_eq_getElem?_getD, List.getElem?_eq_getElem hidx2]
        exact List.getElem_mem hidx2
      obtain ⟨p, hp, hps2⟩ := hsrc _ hs2mem
      obtain ⟨s, hs, hword⟩ := hmem p hp
      have hseq : s = l.getD (rng 2 % l.length) [] := by
        rw [hs] at hps2
        exact Option.some.inj hps2
      subst hseq
      have hsent : l.getD (rng 2 % l.length) [] ∈ d.sentences := List.getElem?_mem hs
      have hlow := hLs _ hsent
      have hword' : pivot_of d line rng ∈ split_words (l.getD (rng 2 % l.length) []) := by
        rw [hlow] at hword
        exact hword
      obtain ⟨rws, hrws⟩ := get_words_right_isSome hword'
      rw [respond_to_splice d line rng l hkw hsw h2, hrws]
      exact ⟨_, rfl⟩

/-- Executable check of `IndexOk` for concrete stores. -/
def index_entry_check (ss : List Str) (kv : Str × List Nat) : Bool :=
  decide kv.2.Nodup && kv.2.all (fun p =>
    match ss[p]? with
    | some s => decide (kv.1 ∈ split_words (strToLower s))
    | none => false)

def index_ok_check (d : Dictionary) : Bool :=
  d.indices.all (index_entry_check d.sentences)

theorem findIndices_mem {idx : Indices} {w : Str} {ps : List Nat}
    (h : findIndices w idx = some ps) : (w, ps) ∈ idx := by
  induction idx with
  | nil => simp [findIndices] at h
  | cons kv rest ih =>
    unfold findIndices at h
    by_cases hk : kv.1 = w
    · rw [if_pos hk] at h
      injection h with h
      have hkv : kv = (w, ps) := by rw [← hk, ← h]
      rw [hkv]
      exact List.mem_cons_self _ _
    · rw [if_neg hk] at h
      exact List.mem_cons_of_mem kv (ih h)

theorem indexConsistent_of_check (d : Dictionary) (h : index_ok_check d = true) :
    IndexConsistent d := by
  intro w ps hf
  have hmem := findIndices_mem hf
  have hentry := List.all_eq_true.mp h _ hmem
  unfold index_entry_check at hentry
  obtain ⟨hnd, hall⟩ := Bool.and_eq_true_iff.mp hentry
  refine ⟨of_decide_eq_true hnd, fun p hp => ?_⟩
  have hp' := List.all_eq_true.mp hall p hp
  cases hsp : d.sentences[p]? with
  | none => rw [hsp] at hp'; cases hp'
  | some s =>
    rw [hsp] at hp'
    exact ⟨s, rfl, of_decide_eq_true hp'⟩

/-- A store satisfying the index-consistency invariant whose sentences are
not lowercase: the invariant relates the index to the *lowercased*
tokenization, which "HELLO" satisfies for the key "hello". -/
def shout_store : Dictionary :=
  ⟨["HELLO".toList, "HELLO THERE".toList], [("hello".toList, [0, 1])]⟩

/-- C8 counterexample: `shout_store` satisfies the index-consistency
invariant, yet `respond_to` reaches the `unwrap` panic: the right donor
"HELLO" does not contain the pivot "hello" in its un-lowercased
tokenization. -/
theorem respond_unwrap_counterexample :
    IndexConsistent shout_store ∧
    shout_store.respond_to "hello".toList (fun _ => 0) =
      .error "called unwrap on a none value" :=
  ⟨indexConsistent_of_check shout_store (by decide), by decide⟩

/-- C8 witness: on a consistent, lowercase store `respond_to` never hits a
panic branch. -/
theorem respond_to_consistent_no_panic_witness :
    ∃ r, kw_store.respond_to "i love pizza".toList (fun _ => 0) = .ok r :=
  respond_to_consistent_no_panic kw_store "i love pizza".toList (fun _ => 0)
    (indexConsistent_of_check kw_store (by decide))
    (by unfold LowerStable; decide)

/-- C10: if the splicing branch is reached (positions of the pivot all
valid, at least two qualifying sentences) and the left donor `s1` does not
contain the pivot as a word, `respond_to` does not fail on the left lookup:
the left context is treated as empty and the response is the right-context
string alone — whereas the same failed lookup on the right donor `s2` is a
panic. -/
theorem respond_to_left_miss (d : Dictionary) (line : Str) (rng : Nat → Nat)
    (l : List Str)
    (hkw : d.known_words line ≠ [])
    (hsw : d.sentences_with_word (pivot_of d line rng) = .ok l)
    (h2 : ¬ l.length < 2)
    (hleft : get_words_left_of_pivot (l.getD (rng 1 % l.length) [])
      (pivot_of d line rng) = none) :
    (∀ rws, get_words_right_of_pivot_inclusive (l.getD (rng 2 % l.length) [])
        (pivot_of d line rng) = some rws →
      d.respond_to line rng = .ok (some (joinSpace rws))) ∧
    (get_words_right_of_pivot_inclusive (l.getD (rng 2 % l.length) [])
        (pivot_of d line rng) = none →
      d.respond_to line rng = .error "called unwrap on a none value") := by
  constructor
  · intro rws hrws
    rw [respond_to_splice d line rng l hkw hsw h2, hrws, hleft]
    rfl
  · intro hrws
    rw [respond_to_splice d line rng l hkw hsw h2, hrws]

/-- A store whose left donor fails to contain the pivot while the right
donor contains it. -/
def miss_store : Dictionary :=
  ⟨["HELLO x".toList, "hello".toList], [("hello".toList, [0, 1])]⟩

/-- C10 witness: the left donor "HELLO x" misses the pivot "hello"; the
response is the right context of "hello" alone. -/
theorem respond_to_left_miss_witness :
    miss_store.respond_to "hello".toList (fun n => if n = 2 then 1 else 0) =
      .ok (some "hello".toList) :=
  (respond_to_left_miss miss_store "hello".toList (fun n => if n = 2 then 1 else 0)
    ["HELLO x".toList, "hello".toList]
    (by decide) (by decide) (by decide) (by decide)).1
    ["hello".toList] (by decide)

/-! ### C7: characterization of `split_sentences` -/

theorem sentence_chunks_ne_nil : ∀ (b : Bool) (s : Str), sentence_chunks b s ≠ [] := by
  intro b s
  induction b, s using sentence_chunks.induct with
  | case1 b => simp [sentence_chunks]
  | case2 b c rest hcond ih => simp [sentence_chunks, hcond]
  | case3 b c rest hcond hrec ih => simp [sentence_chunks, hcond, hrec]
  | case4 b c rest hcond t ts hrec ih => simp [sentence_chunks, hcond, hrec]

/-- Concatenating each chunk's segment and delimiter in order. -/
def chunks_flatten (L : List (Str × Str)) : Str :=
  L.foldr (fun ch acc => ch.1 ++ ch.2 ++ acc) []

/-- The chunks reconstruct the input exactly: nothing is reordered or lost
at a split. -/
theorem sentence_chunks_flatten :
    ∀ (b : Bool) (s : Str), chunks_flatten (sentence_chunks b s) = s := by
  intro b s
  induction b, s using sentence_chunks.induct with
  | case1 b => simp [sentence_chunks, chunks_flatten]
  | case2 b c rest hcond ih =>
    rw [sentence_chunks]
    simp only [if_pos hcond, chunks_flatten, List.foldr_cons]
    rw [show (List.foldr (fun ch acc => ch.1 ++ ch.2 ++ acc) []
        (sentence_chunks false (List.dropWhile Char.isWhitespace rest))) =
      List.dropWhile Char.isWhitespace rest from ih]
    simp [List.takeWhile_append_dropWhile]
  | case3 b c rest hcond hrec ih => exact absurd hrec (sentence_chunks_ne_nil _ _)
  | case4 b c rest hcond t ts hrec ih =>
    rw [sentence_chunks]
    simp only [if_neg hcond, hrec]
    rw [hrec] at ih
    unfold chunks_flatten at ih ⊢
    simp only [List.foldr_cons, List.cons_append, List.append_assoc] at ih ⊢
    rw [ih]

/-- Every delimiter consists of whitespace only. -/
theorem sentence_chunks_delim_ws :
    ∀ (b : Bool) (s : Str) (ch : Str × Str), ch ∈ sentence_chunks b s →
      ch.2.all Char.isWhitespace = true := by
  intro b s
  induction b, s using sentence_chunks.induct with
  | case1 b =>
    intro ch hch
    simp [sentence_chunks] at hch
    simp [hch]
  | case2 b c rest hcond ih =>
    intro ch hch
    rw [sentence_chunks, if_pos hcond] at hch
    rcases List.mem_cons.mp hch with hch | hch
    · subst hch
      simp only [List.all_cons, Bool.and_eq_true]
      refine ⟨(Bool.and_eq_true_iff.mp hcond).2, ?_⟩
      rw [List.all_eq_true]
      exact fun x hx => List.mem_takeWhile_imp hx
    · exact ih ch hch
  | case3 b c rest hcond hrec ih => exact absurd hrec (sentence_chunks_ne_nil _ _)
  | case4 b c rest hcond t ts hrec ih =>
    intro ch hch
    rw [sentence_chunks, if_neg hcond, hrec] at hch
    rcases List.mem_cons.mp hch with hch | hch
    · subst hch
      exact ih t (hrec ▸ List.mem_cons_self t ts)
    · exact ih ch (hrec ▸ List.mem_cons_of_mem t hch)

/-- A nonempty delimiter is always immediately preceded by sentence
punctuation: a chunk whose segment is nonempty ends it in one of `.!?`; a
chunk with an empty segment and a nonempty delimiter can only be the first
chunk, and only when the incoming state (the character preceding the
scanned text) is punctuation; no later chunk pairs a nonempty delimiter
with an empty segment. -/
theorem sentence_chunks_punct_struct :
    ∀ (b : Bool) (s : Str),
      (∀ ch ∈ sentence_chunks b s, ch.2 ≠ [] → ch.1 ≠ [] →
        is_sentence_punct (ch.1.getLastD ' ') = true) ∧
      (∀ ch ∈ (sentence_chunks b s).tail, ch.2 ≠ [] → ch.1 ≠ []) ∧
      (∀ seg del tl, sentence_chunks b s = (seg, del) :: tl → del ≠ [] → seg = [] →
        b = true) := by
  intro b s
  induction b, s using sentence_chunks.induct with
  | case1 b =>
    refine ⟨?_, ?_, ?_⟩
    · intro ch hch hne _
      simp [sentence_chunks] at hch
      rw [hch] at hne
      exact absurd rfl hne
    · intro ch hch
      simp [sentence_chunks] at hch
    · intro seg del tl heq hne hseg
      rw [sentence_chunks] at heq
      injection heq with h1 h2
      injection h1 with _ hdel
      rw [← hdel] at hne
      exact absurd rfl hne
  | case2 b c rest hcond ih =>
    have hrw : sentence_chunks b (c :: rest) =
        ([], c :: rest.takeWhile Char.isWhitespace) ::
          sentence_chunks false (rest.dropWhile Char.isWhitespace) := by
      rw [sentence_chunks, if_pos hcond]
    refine ⟨?_, ?_, ?_⟩
    · intro ch hch hne hseg
      rw [hrw] at hch
      rcases List.mem_cons.mp hch with hch | hch
      · subst hch
        exact absurd rfl hseg
      · exact ih.1 ch hch hne hseg
    · intro ch hch hne
      rw [hrw] at hch
      simp only [List.tail_cons] at hch
      cases hR : sentence_chunks false (rest.dropWhile Char.isWhitespace) with
      | nil => exact absurd hR (sentence_chunks_ne_nil _ _)
      | cons r rs =>
        rw [hR] at hch
        rcases List.mem_cons.mp hch with hch | hch
        · subst hch
          intro hseg
          have := ih.2.2 ch.1 ch.2 rs (by rw [hR]) hne hseg
          exact absurd this Bool.false_ne_true
        · have := ih.2.1 ch (by rw [hR]; exact hch) hne
          exact this
    · intro seg del tl heq _ hseg
      exact (Bool.and_eq_true_iff.mp hcond).1
  | case3 b c rest hcond hrec ih => exact absurd hrec (sentence_chunks_ne_nil _ _)
  | case4 b c rest hcond t ts hrec ih =>
    have hrw : sentence_chunks b (c :: rest) = (c :: t.1, t.2) :: ts := by
      rw [sentence_chunks, if_neg hcond, hrec]
    refine ⟨?_, ?_, ?_⟩
    · intro ch hch hne hseg
      rw [hrw] at hch
      rcases List.mem_cons.mp hch with hch | hch
      · subst hch
        simp only at hne ⊢
        cases ht : t.1 with
        | nil =>
          simp only [ht, List.getLastD_cons, List.getLastD_nil]
          exact ih.2.2 t.1 t.2 ts (by rw [hrec]) hne ht
        | cons x xs =>
          have h3 := ih.1 t (hrec ▸ List.mem_cons_self t ts) hne
            (by rw [ht]; exact List.cons_ne_nil x xs)
          rw [ht] at h3
          simp only [ht, List.getLastD_cons] at h3 ⊢
          exact h3
      · exact ih.1 ch (hrec ▸ List.mem_cons_of_mem t hch) hne hseg
    · intro ch hch hne
      rw [hrw] at hch
      simp only [List.tail_cons] at hch
      exact ih.2.1 ch (by rw [hrec]; exact hch) hne
    · intro seg del tl heq hne hseg
      rw [hrw] at heq
      injection heq with h1 _
      injection h1 with hsegeq _
      rw [← hsegeq] at hseg
      exact absurd hseg (List.cons_ne_nil c t.1)

/-- No split boundary survives inside a segment: a segment never contains a
whitespace character immediately after one of `.!?`; moreover a segment
whose first character is whitespace can only start the scanned text. -/
theorem sentence_chunks_no_internal :
    ∀ (b : Bool) (s : Str),
      (∀ ch ∈ sentence_chunks b s, List.Chain'
        (fun a b' => ¬(is_sentence_punct a = true ∧ b'.isWhitespace = true)) ch.1) ∧
      (∀ seg del tl, sentence_chunks b s = (seg, del) :: tl → seg ≠ [] → b = true →
        (seg.headD ' ').isWhitespace = false) := by
  intro b s
  induction b, s using sentence_chunks.induct with
  | case1 b =>
    constructor
    · intro ch hch
      simp [sentence_chunks] at hch
      rw [hch]
      exact List.chain'_nil
    · intro seg del tl heq hseg _
      rw [sentence_chunks] at heq
      injection heq with h1 _
      injection h1 with hs _
      exact absurd hs.symm hseg
  | case2 b c rest hcond ih =>
    have hrw : sentence_chunks b (c :: rest) =
        ([], c :: rest.takeWhile Char.isWhitespace) ::
          sentence_chunks false (rest.dropWhile Char.isWhitespace) := by
      rw [sentence_chunks, if_pos hcond]
    constructor
    · intro ch hch
      rw [hrw] at hch
      rcases List.mem_cons.mp hch with hch | hch
      · rw [hch]
        exact List.chain'_nil
      · exact ih.1 ch hch
    · intro seg del tl heq hseg _
      rw [hrw] at heq
      injection heq with h1 _
      injection h1 with hs _
      exact absurd hs.symm hseg
  | case3 b c rest hcond hrec ih => exact absurd hrec (sentence_chunks_ne_nil _ _)
  | case4 b c rest hcond t ts hrec ih =>
    have hrw : sentence_chunks b (c :: rest) = (c :: t.1, t.2) :: ts := by
      rw [sentence_chunks, if_neg hcond, hrec]
    constructor
    · intro ch hch
      rw [hrw] at hch
      rcases List.mem_cons.mp hch with hch | hch
      · rw [hch]
        show List.Chain' _ (c :: t.1)
        cases ht : t.1 with
        | nil => exact List.chain'_singleton c
        | cons x xs =>
          refine List.chain'_cons.mpr ⟨?_, ?_⟩
          · rintro ⟨hpc, hwx⟩
            have hws := ih.2 t.1 t.2 ts (by rw [hrec])
              (by rw [ht]; exact List.cons_ne_nil x xs) hpc
            rw [ht] at hws
            simp only [List.headD_cons] at hws
            rw [hws] at hwx
            exact Bool.false_ne_true hwx
          · have hchain := ih.1 t (hrec ▸ List.mem_cons_self t ts)
            rw [ht] at hchain
            exact hchain
      · exact ih.1 ch (hrec ▸ List.mem_cons_of_mem t hch)
    · intro seg del tl heq hseg hb
      rw [hrw] at heq
      injection heq with h1 _
      injection h1 with hs _
      rw [← hs]
      simp only [List.headD_cons]
      rw [hb] at hcond
      simp only [Bool.true_and] at hcond
      exact Bool.eq_false_iff.mpr hcond

theorem sentSplitAux_skip_ws :
    ∀ rest : Str,
      (sentSplitAux true rest).filter (fun t => !t.isEmpty) =
      (sentSplitAux false (rest.dropWhile Char.isWhitespace)).filter
        (fun t => !t.isEmpty) := by
  intro rest
  induction rest with
  | nil => rfl
  | cons x rest ih =>
    by_cases hx : x.isWhitespace
    · have h1 : sentSplitAux true (x :: rest) = [] :: sentSplitAux true rest := by
        rw [sentSplitAux]
        rw [if_pos (by simp [hx])]
      rw [h1, List.dropWhile_cons_of_pos hx]
      simpa using ih
    · have hsA : sentSplitAux true (x :: rest) =
          (match sentSplitAux (is_sentence_punct x) rest with
           | [] => [[x]]
           | t :: ts => (x :: t) :: ts) := by
        rw [sentSplitAux]
        rw [if_neg (by simp [hx])]
      have hsB : sentSplitAux false (x :: rest) =
          (match sentSplitAux (is_sentence_punct x) rest with
           | [] => [[x]]
           | t :: ts => (x :: t) :: ts) := by
        rw [sentSplitAux]
        rw [if_neg (by simp [hx])]
      rw [List.dropWhile_cons_of_neg hx, hsA, hsB]

theorem sentSplit_chunks_rel :
    ∀ (b : Bool) (s : Str),
      ∃ hd tl1 tl2, (sentence_chunks b s).map Prod.fst = hd :: tl1 ∧
        sentSplitAux b s = hd :: tl2 ∧
        tl1.filter (fun t => !t.isEmpty) = tl2.filter (fun t => !t.isEmpty) := by
  intro b s
  induction b, s using sentence_chunks.induct with
  | case1 b =>
    exact ⟨[], [], [], by simp [sentence_chunks], by simp [sentSplitAux], rfl⟩
  | case2 b c rest hcond ih =>
    obtain ⟨hd', tl1', tl2', h1, h2, h3⟩ := ih
    refine ⟨[], (sentence_chunks false (rest.dropWhile Char.isWhitespace)).map Prod.fst,
      sentSplitAux true rest, ?_, ?_, ?_⟩
    · rw [sentence_chunks, if_pos hcond]
      rfl
    · rw [sentSplitAux]
      rw [if_pos hcond]
    · rw [h1, sentSplitAux_skip_ws rest, h2, List.filter_cons, List.filter_cons, h3]
  | case3 b c rest hcond hrec ih => exact absurd hrec (sentence_chunks_ne_nil _ _)
  | case4 b c rest hcond t ts hrec ih =>
    obtain ⟨hd', tl1', tl2', h1, h2, h3⟩ := ih
    have ht1 : t.1 = hd' ∧ ts.map Prod.fst = tl1' := by
      rw [hrec] at h1
      simp only [List.map_cons] at h1
      exact ⟨(List.cons.injEq _ _ _ _ ▸ h1).1, (List.cons.injEq _ _ _ _ ▸ h1).2⟩
    refine ⟨c :: hd', ts.map Prod.fst, tl2', ?_, ?_, ?_⟩
    · rw [sentence_chunks, if_neg hcond, hrec]
      simp only [List.map_cons, ht1.1]
    · rw [sentSplitAux]
      rw [if_neg hcond, h2]
    · rw [ht1.2]
      exact h3

/-- The function `split_sentences` computes exactly the nonempty segments of the
(segment, delimiter)-chunk decomposition of the regex scan. -/
theorem split_sentences_eq_chunks (s : Str) :
    split_sentences s =
      ((sentence_chunks false s).map Prod.fst).filter (fun t => !t.isEmpty) := by
  obtain ⟨hd, tl1, tl2, h1, h2, h3⟩ := sentSplit_chunks_rel false s
  unfold split_sentences
  rw [h1, h2, List.filter_cons, List.filter_cons, h3]

/-- Modelled from the spec: "trimmed of surrounding whitespace". -/
def trimStr (s : Str) : Str :=
  ((s.dropWhile Char.isWhitespace).reverse.dropWhile Char.isWhitespace).reverse

/-- C7 counterexample: segments are NOT trimmed of surrounding whitespace:
on the input " a" the split returns the single segment " a", which retains
its leading whitespace (there is no `.!?`-plus-whitespace boundary before
it, so the leading space is not delimiter material). -/
theorem split_sentences_trimmed_counterexample :
    split_sentences [' ', 'a'] = [[' ', 'a']] ∧
    trimStr [' ', 'a'] ≠ [' ', 'a'] := by
  refine ⟨by decide, by decide⟩

/-- C7 (amended, dropping only the trimming clause): `splitSentences`
splits exactly at maximal whitespace runs immediately preceded by one of
`.!?`: the (segment, delimiter) chunks of the scan reassemble the input in
original order; every delimiter is whitespace-only and, when nonempty, is
immediately preceded by one of `.!?` ending a nonempty segment; no
punctuation-followed-by-whitespace boundary survives inside any segment
(so a punctuation run not followed by whitespace does not split); and
every returned segment is non-empty. -/
theorem split_sentences_spec (s : Str) :
    split_sentences s =
      ((sentence_chunks false s).map Prod.fst).filter (fun t => !t.isEmpty) ∧
    chunks_flatten (sentence_chunks false s) = s ∧
    (∀ ch ∈ sentence_chunks false s, ch.2.all Char.isWhitespace = true) ∧
    (∀ ch ∈ sentence_chunks false s, ch.2 ≠ [] →
      ch.1 ≠ [] ∧ is_sentence_punct (ch.1.getLastD ' ') = true) ∧
    (∀ ch ∈ sentence_chunks false s, List.Chain'
      (fun a b' => ¬(is_sentence_punct a = true ∧ b'.isWhitespace = true)) ch.1) ∧
    (∀ t ∈ split_sentences s, t ≠ []) := by
  refine ⟨split_sentences_eq_chunks s, sentence_chunks_flatten false s,
    fun ch hch => sentence_chunks_delim_ws false s ch hch, ?_, ?_, ?_⟩
  · intro ch hch hne
    have hps := sentence_chunks_punct_struct false s
    have hseg : ch.1 ≠ [] := by
      intro hempty
      cases hC : sentence_chunks false s with
      | nil => exact absurd hC (sentence_chunks_ne_nil _ _)
      | cons r rs =>
        rw [hC] at hch
        rcases List.mem_cons.mp hch with hch | hch
        · subst hch
          have := hps.2.2 ch.1 ch.2 rs (by rw [hC]) hne hempty
          exact Bool.false_ne_true this
        · exact absurd (hps.2.1 ch (by rw [hC]; exact hch) hne) (fun h => h hempty)
    exact ⟨hseg, hps.1 ch hch hne hseg⟩
  · exact fun ch hch => (sentence_chunks_no_internal false s).1 ch hch
  · intro t ht
    have := (List.mem_filter.mp ht).2
    simpa using this

/-- C7 witness: the characterization instantiated on a concrete input, at
one of the returned segments. -/
theorem split_sentences_spec_witness :
    split_sentences "Hi. A.b!".toList =
      ((sentence_chunks false "Hi. A.b!".toList).map Prod.fst).filter
        (fun t => !t.isEmpty) ∧
    chunks_flatten (sentence_chunks false "Hi. A.b!".toList) = "Hi. A.b!".toList ∧
    "Hi.".toList ≠ [] :=
  ⟨(split_sentences_spec "Hi. A.b!".toList).1,
   (split_sentences_spec "Hi. A.b!".toList).2.1,
   (split_sentences_spec "Hi. A.b!".toList).2.2.2.2.2 "Hi.".toList (by decide)⟩
